import Mathlib

/-!
Verification of libalpaca's resource-sizing and padding pipeline.

This file gives a shallow embedding of the Rust sources
(`deterministic.rs`, `distribution.rs`, `pad.rs`, `parsing.rs`, `dom.rs`,
`morphing.rs`) and proves properties of the embedded definitions.

Modelling conventions:
- byte buffers (`Vec<u8>`) become `List Nat`, strings become `List Char`
  (ASCII contents, so Rust byte indices coincide with character indices);
- randomness is an injected entropy stream `Nat → Nat`, threaded by index
  exactly as successive `thread_rng` draws are consumed;
- a Rust panic (index/slice out of bounds, `unwrap` on `None`/`Err`,
  arithmetic overflow, division by zero) is an outer `Option` layer:
  `none` means the Rust code panics (or, for `get_multiple`, that the
  Rust `while` loop diverges), `some` carries the normal result;
- fallible Rust functions returning `Result` become `Except`.
-/

namespace Alpaca

/-- Kinds of object, mirroring `enum ObjectKind` in `objects.rs` / `dom.rs`. -/
inductive ObjectKind where
  | Alpaca
  | HTML
  | CSS
  | IMG
  | Unknown
deriving DecidableEq, Repr

/-- Mirrors `struct Object` (objects.rs): content bytes, position in the html,
optional target size, and the uri as written in the html source. -/
structure Object where
  kind : ObjectKind
  content : List Nat
  position : Option Nat
  target_size : Option Nat
  uri : List Char
deriving DecidableEq, Repr

/-- Mirrors `parse_object_kind` (parsing.rs): maps a mime string to a kind. -/
def parse_object_kind (mime : String) : ObjectKind :=
  if mime = "text/html" then .HTML
  else if mime = "text/css" then .CSS
  else if mime = "image/png" then .IMG
  else if mime = "image/jpeg" then .IMG
  else .Unknown

/-- Mirrors `Object::from_str` (objects.rs): content from a string, no
position, no target size. -/
def Object.from_str (cont : List Nat) (mime : String) (uri : List Char) : Object :=
  { kind := parse_object_kind mime
    content := cont
    position := none
    target_size := none
    uri := uri }

/-! ### Size arithmetic (`deterministic.rs`) -/

/-- Loop of `get_multiple` (deterministic.rs): `while count < min { count += num }`.
Structural fuel models the loop; running out of fuel (`none`) can only happen
when the Rust loop diverges (`num = 0` with `min > 0`), as proved below. -/
def get_multiple_go (num minv : Nat) : Nat → Nat → Option Nat
  | 0, _ => none
  | fuel + 1, count =>
    if count < minv then get_multiple_go num minv fuel (count + num) else some count

/-- Mirrors `get_multiple` (deterministic.rs): the loop starts at `count = num`.
Fuel `minv + 1` is sufficient whenever `num ≥ 1` (one loop iteration raises
`count` by `num ≥ 1`, and the loop stops as soon as `count ≥ minv`). -/
def get_multiple (num minv : Nat) : Option Nat :=
  get_multiple_go num minv (minv + 1) num

theorem get_multiple_go_sufficient (num minv : Nat) (_hnum : 0 < num) :
    ∀ fuel count, minv ≤ count + fuel * num →
      ∃ v, get_multiple_go num minv (fuel + 1) count = some v := by
  intro fuel
  induction fuel with
  | zero =>
    intro count h
    refine ⟨count, ?_⟩
    simp only [get_multiple_go]
    have : ¬ count < minv := by omega
    simp [this]
  | succ f ih =>
    intro count h
    by_cases hc : count < minv
    · have h' : minv ≤ (count + num) + f * num := by
        have : (f + 1) * num = f * num + num := by ring
        omega
      obtain ⟨v, hv⟩ := ih (count + num) h'
      exact ⟨v, by simp only [get_multiple_go, if_pos hc]; exact hv⟩
    · exact ⟨count, by simp only [get_multiple_go, if_neg hc]⟩

theorem get_multiple_go_spec (num minv : Nat) (hnum : 0 < num) :
    ∀ fuel count v, num ∣ count →
      get_multiple_go num minv fuel count = some v →
      num ∣ v ∧ count ≤ v ∧ minv ≤ v ∧
      (count < minv + num → v < minv + num) ∧
      (∀ m, num ∣ m → minv ≤ m → count ≤ m → v ≤ m) := by
  intro fuel
  induction fuel with
  | zero => intro count v _ h; simp [get_multiple_go] at h
  | succ f ih =>
    intro count v hdvd h
    simp only [get_multiple_go] at h
    by_cases hc : count < minv
    · rw [if_pos hc] at h
      obtain ⟨h1, h2, h3, h4, h5⟩ := ih (count + num) v (by exact Dvd.dvd.add hdvd dvd_rfl) h
      refine ⟨h1, by omega, h3, fun hlt => h4 (by omega), ?_⟩
      intro m hm hminv hcm
      refine h5 m hm hminv ?_
      obtain ⟨a, ha⟩ := hm
      obtain ⟨b, hb⟩ := hdvd
      have hba : b < a := by
        by_contra hba
        push_neg at hba
        have : m ≤ count := by
          subst ha hb
          exact Nat.mul_le_mul_left num hba
        omega
      calc count + num = num * (b + 1) := by rw [hb]; ring
        _ ≤ num * a := Nat.mul_le_mul_left num (by omega)
        _ = m := ha.symm
    · rw [if_neg hc] at h
      injection h with h
      subst h
      exact ⟨hdvd, le_rfl, by omega, fun hlt => hlt, fun m _ _ hcm => hcm⟩

/-- Characterization of `get_multiple` for a positive step: the result is the
smallest positive multiple of `s` that is at least `f`. -/
theorem get_multiple_spec (s f : Nat) (hs : 1 ≤ s) :
    ∃ v, get_multiple s f = some v ∧ s ∣ v ∧ f ≤ v ∧ s ≤ v ∧
      (1 ≤ f → v < f + s) ∧
      (∀ m, s ∣ m → f ≤ m → s ≤ m → v ≤ m) := by
  obtain ⟨v, hv⟩ := get_multiple_go_sufficient s f hs f s (by nlinarith)
  obtain ⟨h1, h2, h3, h4, h5⟩ := get_multiple_go_spec s f hs (f + 1) s v dvd_rfl hv
  exact ⟨v, hv, h1, h3, h2, fun hf => h4 (by omega), h5⟩

/-- C9 counterexample: at step 2 and floor 0 the code returns 2 (the loop body
never runs), and 2 is not `< 0 + 2`, so the claimed bound `get_multiple s f <
f + s` fails at `f = 0`. -/
theorem c9_counterexample : get_multiple 2 0 = some 2 ∧ ¬ (2 < 0 + 2) := by
  exact ⟨rfl, by omega⟩

/-- C9 (corrected): for step `s ≥ 1` and floor `f`, `get_multiple s f` returns
the smallest multiple of `s` that is both `≥ f` and `≥ s` (i.e. the smallest
positive multiple of `s` that is `≥ f`); it is a multiple of `s`, `≥ f`, and
when `f ≥ 1` it is `< f + s`; `f = 0` yields `s`. (The claimed bound `< f + s`
holds only for `f ≥ 1`; at `f = 0` the result is `s` itself.) -/
theorem c9_get_multiple_amended (s f : Nat) (hs : 1 ≤ s) :
    ∃ v, get_multiple s f = some v ∧ s ∣ v ∧ f ≤ v ∧ s ≤ v ∧
      (1 ≤ f → v < f + s) ∧
      (∀ m, s ∣ m → f ≤ m → s ≤ m → v ≤ m) ∧
      (f = 0 → v = s) := by
  obtain ⟨v, hv, h1, h2, h3, h4, h5⟩ := get_multiple_spec s f hs
  refine ⟨v, hv, h1, h2, h3, h4, h5, fun hf => ?_⟩
  have := h5 s dvd_rfl (by omega) le_rfl
  omega

/-- C9 witness: at step 3 and floor 7 the characterization instantiates. -/
theorem c9_witness :
    1 ≤ 3 ∧
    (∃ v, get_multiple 3 7 = some v ∧ 3 ∣ v ∧ 7 ≤ v ∧ 3 ≤ v ∧
      (1 ≤ 7 → v < 7 + 3) ∧
      (∀ m, 3 ∣ m → 7 ≤ m → 3 ≤ m → v ≤ m) ∧
      (7 = 0 → v = 3)) :=
  ⟨by omega, c9_get_multiple_amended 3 7 (by omega)⟩

/-! ### Character-list utilities: models of Rust `str` operations -/

/-- Index of the first occurrence of `sep` as a contiguous run inside `l`
(`none` if there is none). Models the scanning done by `str::split`. -/
def findOcc (sep : List Char) : List Char → Option Nat
  | [] => if sep.isEmpty then some 0 else none
  | c :: t => if sep.isPrefixOf (c :: t) then some 0 else (findOcc sep t).map (· + 1)

/-- Fuel-driven splitter: models `str::split(sep)` for non-empty `sep`
(left to right, non-overlapping). Fuel `l.length + 1` always suffices, since
every step consumes at least `sep.length ≥ 1` characters. -/
def splitOnGo (sep : List Char) : Nat → List Char → List (List Char)
  | 0, l => [l]
  | fuel + 1, l =>
    match findOcc sep l with
    | none => [l]
    | some i => l.take i :: splitOnGo sep fuel (l.drop (i + sep.length))

/-- Models `str::split(sep)` for non-empty `sep`. -/
def splitOnL (sep l : List Char) : List (List Char) :=
  splitOnGo sep (l.length + 1) l

/-- Models `str::parse::<usize>`: succeeds on a non-empty all-digit token.
(Leading `+` and the 64-bit overflow failure are not modelled; no claim
depends on them.) -/
def parseUsize (l : List Char) : Option Nat :=
  if l ≠ [] ∧ l.all Char.isDigit then
    some (l.foldl (fun acc c => acc * 10 + (c.toNat - 48)) 0)
  else none

/-- Query-parameter marker used throughout `morphing.rs`/`parsing.rs`. -/
def alpacaMarker : List Char := "alpaca-padding=".toList

/-- Mirrors `parse_target_size` (parsing.rs): split the query on
`"alpaca-padding="`, take the last piece, split that on `"&"`, take the first
piece, and parse it as a `usize`, with 0 on parse failure. -/
def parse_target_size (query : List Char) : Nat :=
  let split1 := splitOnL alpacaMarker query
  let split2 := splitOnL ['&'] (split1.getLastD [])
  let size_str := split2.headD []
  match parseUsize size_str with
  | some size => size
  | none => 0

/-- Loop of the `usize::to_string` model: peel decimal digits from the right,
most significant digit emitted last. Fuel `n + 1` always suffices. -/
def natDigitsGo : Nat → Nat → List Char → List Char
  | 0, _, acc => acc
  | fuel + 1, n, acc =>
    if n < 10 then Nat.digitChar n :: acc
    else natDigitsGo fuel (n / 10) (Nat.digitChar (n % 10) :: acc)

/-- Models `usize::to_string`: the decimal digits of `n`. -/
def natDigits (n : Nat) : List Char :=
  natDigitsGo (n + 1) n []

theorem digitChar_isDigit {k : Nat} (hk : k < 10) : (Nat.digitChar k).isDigit = true := by
  interval_cases k <;> decide

theorem digitChar_toNat {k : Nat} (hk : k < 10) : (Nat.digitChar k).toNat - 48 = k := by
  interval_cases k <;> decide

theorem natDigitsGo_spec :
    ∀ f n acc, n < 10 ^ (f + 1) →
      ∃ d, natDigitsGo (f + 1) n acc = d ++ acc ∧ d ≠ [] ∧
        (∀ c ∈ d, c.isDigit = true) ∧
        ∀ init, (d ++ acc).foldl (fun a c => a * 10 + (c.toNat - 48)) init =
          acc.foldl (fun a c => a * 10 + (c.toNat - 48)) (init * 10 ^ d.length + n) := by
  intro f
  induction f with
  | zero =>
    intro n acc hn
    have hn10 : n < 10 := by simpa using hn
    refine ⟨[Nat.digitChar n], ?_, by simp, ?_, ?_⟩
    · simp [natDigitsGo, hn10]
    · intro c hc
      simp only [List.mem_singleton] at hc
      subst hc
      exact digitChar_isDigit hn10
    · intro init
      simp [digitChar_toNat hn10]
  | succ f ih =>
    intro n acc hn
    by_cases hn10 : n < 10
    · refine ⟨[Nat.digitChar n], ?_, by simp, ?_, ?_⟩
      · simp [natDigitsGo, hn10]
      · intro c hc
        simp only [List.mem_singleton] at hc
        subst hc
        exact digitChar_isDigit hn10
      · intro init
        simp [digitChar_toNat hn10]
    · have hdiv : n / 10 < 10 ^ (f + 1) := by
        rw [Nat.div_lt_iff_lt_mul (by omega)]
        calc n < 10 ^ (f + 1 + 1) := hn
          _ = 10 ^ (f + 1) * 10 := by ring
      obtain ⟨d', hd'eq, hd'ne, hd'dig, hd'fold⟩ :=
        ih (n / 10) (Nat.digitChar (n % 10) :: acc) hdiv
      have hmod : n % 10 < 10 := Nat.mod_lt _ (by omega)
      refine ⟨d' ++ [Nat.digitChar (n % 10)], ?_, by simp, ?_, ?_⟩
      · have : natDigitsGo (f + 1 + 1) n acc =
            natDigitsGo (f + 1) (n / 10) (Nat.digitChar (n % 10) :: acc) := by
          simp [natDigitsGo, hn10]
        rw [this, hd'eq]
        simp
      · intro c hc
        rcases List.mem_append.mp hc with h | h
        · exact hd'dig c h
        · simp only [List.mem_singleton] at h
          subst h
          exact digitChar_isDigit hmod
      · intro init
        have step1 : (d' ++ [Nat.digitChar (n % 10)]) ++ acc =
            d' ++ (Nat.digitChar (n % 10) :: acc) := by simp
        rw [step1, hd'fold init]
        simp only [List.foldl_cons]
        congr 1
        rw [digitChar_toNat hmod]
        have : 10 * (n / 10) + n % 10 = n := Nat.div_add_mod n 10
        rw [List.length_append, List.length_singleton]
        ring_nf
        omega

theorem natDigits_spec (n : Nat) :
    natDigits n ≠ [] ∧ (∀ c ∈ natDigits n, c.isDigit = true) ∧
      parseUsize (natDigits n) = some n := by
  have hn : n < 10 ^ (n + 1) := by
    calc n < 10 ^ n := Nat.lt_pow_self (by omega) n
      _ ≤ 10 ^ (n + 1) := Nat.pow_le_pow_right (by omega) (by omega)
  obtain ⟨d, hdeq, hdne, hddig, hdfold⟩ := natDigitsGo_spec n n [] hn
  have hnd : natDigits n = d := by
    rw [natDigits, hdeq, List.append_nil]
  refine ⟨by rw [hnd]; exact hdne, by rw [hnd]; exact hddig, ?_⟩
  rw [hnd, parseUsize, if_pos ⟨hdne, List.all_eq_true.mpr (fun c hc => hddig c hc)⟩]
  have := hdfold 0
  simp only [List.append_nil, List.foldl_nil] at this
  rw [this]
  simp

/-- Decimal digits never contain the separator characters used by the query
parser; needed for the round-trip proofs. -/
theorem natDigits_not_mem (n : Nat) :
    '=' ∉ natDigits n ∧ '&' ∉ natDigits n ∧ '?' ∉ natDigits n := by
  obtain ⟨_, hdig, _⟩ := natDigits_spec n
  refine ⟨fun h => ?_, fun h => ?_, fun h => ?_⟩ <;>
    · have := hdig _ h
      simp [Char.isDigit] at this

/-! ### Content padder (`pad.rs`) -/

/-- Byte constant `CSS_COMMENT_START` (pad.rs): the two bytes of a CSS
comment opener. -/
def CSS_COMMENT_START : List Nat := [47, 42]

/-- Byte constant `CSS_COMMENT_END` (pad.rs). -/
def CSS_COMMENT_END : List Nat := [42, 47]

/-- Byte constant `HTML_COMMENT_START` (pad.rs), four bytes. -/
def HTML_COMMENT_START : List Nat := [60, 33, 45, 45]

/-- Byte constant `HTML_COMMENT_END` (pad.rs), three bytes. -/
def HTML_COMMENT_END : List Nat := [45, 45, 62]

/-- Models `add_random_chars` / `get_binary_padding` (pad.rs): `pad_len`
draws from the injected entropy stream, reduced to bytes. -/
def randomChars (rnd : Nat → Nat) (pad_len : Nat) : List Nat :=
  (List.range pad_len).map (fun i => rnd i % 256)

/-- Mirrors `get_html_padding` (pad.rs): append
`target_size - content.length` bytes consisting of the comment markers and
random filler. The two `usize` subtractions panic (`none`) exactly when
`target_size < content.length + 7`. -/
def get_html_padding (rnd : Nat → Nat) (html : Object) (target_size : Nat) : Option Object :=
  if target_size < html.content.length + 7 then none
  else
    let pad_len := target_size - html.content.length - 7
    some { html with
      content := html.content ++
        (HTML_COMMENT_START ++ randomChars rnd pad_len ++ HTML_COMMENT_END) }

/-- Mirrors `get_css_padding` (pad.rs): only called with `pad_len ≥ 4`. -/
def get_css_padding (rnd : Nat → Nat) (pad_len : Nat) : List Nat :=
  CSS_COMMENT_START ++ randomChars rnd (pad_len - 4) ++ CSS_COMMENT_END

/-- Mirrors `get_binary_padding` (pad.rs): `pad_len` random bytes. -/
def get_binary_padding (rnd : Nat → Nat) (pad_len : Nat) : List Nat :=
  randomChars rnd pad_len

/-- Mirrors `get_object_padding` (pad.rs): `pad_len = target_size - size`
panics (`none`) when `target_size < size`; a CSS object with
`size + 4 > target_size` is returned unchanged; otherwise the CSS (resp.
binary) padding is appended to the content. -/
def get_object_padding (rnd : Nat → Nat) (object : Object) (size target_size : Nat) :
    Option Object :=
  if target_size < size then none
  else
    let pad_len := target_size - size
    match object.kind with
    | ObjectKind.CSS =>
      if size + 4 > target_size then some object
      else some { object with content := object.content ++ get_css_padding rnd pad_len }
    | _ => some { object with content := object.content ++ get_binary_padding rnd pad_len }

/-- Mirrors `morph_object` (morphing.rs): build an empty object of the given
mime kind, parse the target size from the query, return the padding bytes
together with the updated `size` out-parameter. -/
def morph_object (rnd : Nat → Nat) (kind : String) (query : List Char) (size : Nat) :
    Option (List Nat × Nat) :=
  let object := Object.from_str [] kind []
  let target_size := parse_target_size query
  if target_size = 0 ∨ target_size ≤ size then some ([], 0)
  else
    match get_object_padding rnd object size target_size with
    | none => none
    | some o => some (o.content, o.content.length)

/-- Concrete CSS object with empty content, for evaluations. -/
def exCss : Object :=
  { kind := .CSS, content := [], position := none, target_size := none, uri := [] }

/-- Concrete HTML object with 10 content bytes, for evaluations. -/
def exHtml : Object :=
  { kind := .HTML, content := List.replicate 10 0, position := none,
    target_size := none, uri := [] }

/-- Concrete entropy stream, for evaluations. -/
def exRnd : Nat → Nat := fun _ => 65

/-- C5 counterexample: a CSS object with available delta `4 - 0 = 4 < 8` is
padded (its content becomes the four comment-marker bytes), so "delta < 8
leaves content unchanged" is false — the code's threshold is 4, not 8; and
an HTML object with delta `13 - 10 = 3 < 7` makes the padder's `usize`
subtraction underflow (a panic, modelled `none`) rather than append 3
bytes. -/
theorem c5_counterexample :
    ((4 : Nat) - 0 < 8) ∧
    get_object_padding exRnd exCss 0 4 = some { exCss with content := [47, 42, 42, 47] } ∧
    ({ exCss with content := ([47, 42, 42, 47] : List Nat) } ≠ exCss) ∧
    get_html_padding exRnd exHtml 13 = none := by
  refine ⟨by omega, rfl, by decide, rfl⟩

/-- C5 (corrected): a CSS object is left byte-for-byte unchanged exactly when
the available delta is below 4 (and the target is not below the current
size, which would panic); with delta ≥ 4 it is padded by exactly the delta.
The HTML padder appends exactly `target - current` bytes, comment markers
included, provided the caller reserved the 7 marker bytes
(`target ≥ current + 7`); below that the subtraction underflows. -/
theorem c5_padding_amended (rnd : Nat → Nat) (o : Object) (size target : Nat)
    (h : Object) (htarget : Nat) :
    (o.kind = ObjectKind.CSS → size ≤ target → target < size + 4 →
      get_object_padding rnd o size target = some o) ∧
    (o.kind = ObjectKind.CSS → size + 4 ≤ target →
      ∃ o', get_object_padding rnd o size target = some o' ∧
        o'.content = o.content ++ get_css_padding rnd (target - size) ∧
        o'.content.length = o.content.length + (target - size)) ∧
    (h.content.length + 7 ≤ htarget →
      ∃ h', get_html_padding rnd h htarget = some h' ∧
        h'.content = h.content ++
          (HTML_COMMENT_START ++ randomChars rnd (htarget - h.content.length - 7) ++
            HTML_COMMENT_END) ∧
        h'.content.length = htarget) := by
  refine ⟨?_, ?_, ?_⟩
  · intro hcss hle hlt
    have h1 : ¬ target < size := by omega
    have h2 : size + 4 > target := by omega
    simp [get_object_padding, hcss, h1, h2]
  · intro hcss hge
    have h1 : ¬ target < size := by omega
    have h2 : ¬ size + 4 > target := by omega
    have hlen : (get_css_padding rnd (target - size)).length = target - size := by
      simp only [get_css_padding, CSS_COMMENT_START, CSS_COMMENT_END, randomChars,
        List.length_append, List.length_map, List.length_range, List.length_cons,
        List.length_nil]
      omega
    refine ⟨{ o with content := o.content ++ get_css_padding rnd (target - size) },
      ?_, rfl, ?_⟩
    · simp [get_object_padding, hcss, h1, h2]
    · simp [hlen]
  · intro hge
    refine ⟨{ h with content := h.content ++
        (HTML_COMMENT_START ++ randomChars rnd (htarget - h.content.length - 7) ++
          HTML_COMMENT_END) }, ?_, rfl, ?_⟩
    · rw [get_html_padding, if_neg (by omega)]
    · simp only [HTML_COMMENT_START, HTML_COMMENT_END, randomChars, List.length_append,
        List.length_map, List.length_range, List.length_cons, List.length_nil]
      omega

/-- C5 witness: a CSS object with delta 2 stays unchanged; an HTML object of
length 10 padded to 20 gains exactly 10 bytes. -/
theorem c5_witness :
    get_object_padding exRnd { exCss with content := [1, 2, 3] } 3 5 =
      some { exCss with content := [1, 2, 3] } ∧
    (∃ h', get_html_padding exRnd exHtml 20 = some h' ∧
      h'.content = exHtml.content ++
        (HTML_COMMENT_START ++ randomChars exRnd (20 - exHtml.content.length - 7) ++
          HTML_COMMENT_END) ∧
      h'.content.length = 20) :=
  ⟨(c5_padding_amended exRnd { exCss with content := [1, 2, 3] } 3 5 exHtml 20).1
      rfl (by omega) (by omega),
   (c5_padding_amended exRnd { exCss with content := [1, 2, 3] } 3 5 exHtml 20).2.2
      (by simp [exHtml])⟩

/-- C7 counterexample: for a CSS resource of current size 10 and query
`alpaca-padding=12`, the parsed target 12 exceeds the current size, yet the
returned padding buffer is empty (size 0), not a buffer for the difference
2 — the CSS small-delta rule kicks in inside the padder. -/
theorem c7_counterexample :
    parse_target_size ("alpaca-padding=12".toList) = 12 ∧
    morph_object exRnd "text/css" ("alpaca-padding=12".toList) 10 = some ([], 0) ∧
    ((12 : Nat) - 10 ≠ 0) := by
  refine ⟨rfl, rfl, by omega⟩

/-- C7 (corrected): `morph_object` returns the empty buffer whenever the
parsed `alpaca-padding` value is 0 (missing/malformed) or ≤ the current
size; otherwise it returns the buffer the content padder produces for the
difference — exactly `target - size` bytes, except that a CSS object whose
difference is below 4 also gets an empty buffer. -/
theorem c7_morph_object_amended (rnd : Nat → Nat) (kind : String) (query : List Char)
    (size : Nat) :
    (parse_target_size query = 0 ∨ parse_target_size query ≤ size →
      morph_object rnd kind query size = some ([], 0)) ∧
    (size < parse_target_size query →
      ∃ out, morph_object rnd kind query size = some (out, out.length) ∧
        out.length =
          if parse_object_kind kind = ObjectKind.CSS ∧ parse_target_size query < size + 4
          then 0 else parse_target_size query - size) := by
  constructor
  · intro hcond
    rw [morph_object]
    simp only [if_pos hcond]
  · intro hlt
    rw [morph_object]
    simp only [if_neg (by omega : ¬ (parse_target_size query = 0 ∨ parse_target_size query ≤ size))]
    rw [get_object_padding, if_neg (by omega)]
    simp only [Object.from_str]
    by_cases hk : parse_object_kind kind = ObjectKind.CSS
    · rw [hk]
      by_cases hlt4 : parse_target_size query < size + 4
      · rw [if_pos (by omega)]
        exact ⟨[], rfl, by simp [hk, hlt4]⟩
      · rw [if_neg (by omega)]
        refine ⟨_, rfl, ?_⟩
        have : (get_css_padding rnd (parse_target_size query - size)).length =
            parse_target_size query - size := by
          simp only [get_css_padding, CSS_COMMENT_START, CSS_COMMENT_END, randomChars,
            List.length_append, List.length_map, List.length_range, List.length_cons,
            List.length_nil]
          omega
        simp [hk, hlt4, this]
    · have hout : (get_binary_padding rnd (parse_target_size query - size)).length =
          parse_target_size query - size := by
        simp [get_binary_padding, randomChars]
      cases hkind : parse_object_kind kind with
      | CSS => exact absurd hkind hk
      | Alpaca => exact ⟨_, rfl, by simp [hkind, hout]⟩
      | HTML => exact ⟨_, rfl, by simp [hkind, hout]⟩
      | IMG => exact ⟨_, rfl, by simp [hkind, hout]⟩
      | Unknown => exact ⟨_, rfl, by simp [hkind, hout]⟩

/-- C7 witness: an image resource of size 3 with query `alpaca-padding=7`
gets a 4-byte padding buffer. -/
theorem c7_witness :
    3 < parse_target_size ("alpaca-padding=7".toList) ∧
    (∃ out, morph_object exRnd "image/png" ("alpaca-padding=7".toList) 3 =
        some (out, out.length) ∧
      out.length =
        if parse_object_kind "image/png" = ObjectKind.CSS ∧
            parse_target_size ("alpaca-padding=7".toList) < 3 + 4
        then 0 else parse_target_size ("alpaca-padding=7".toList) - 3) :=
  ⟨by rw [show parse_target_size ("alpaca-padding=7".toList) = 7 from rfl]; omega,
   (c7_morph_object_amended exRnd "image/png" ("alpaca-padding=7".toList) 3).2
      (by rw [show parse_target_size ("alpaca-padding=7".toList) = 7 from rfl]; omega)⟩

/-! ### Distribution sampler (`distribution.rs`) -/

/-- Constant `SAMPLE_LIMIT` (distribution.rs). -/
def SAMPLE_LIMIT : Nat := 30

/-- Mirrors `struct Dist` (distribution.rs). Parameters are kept as their
raw tokens: no claim depends on the numeric values, only on whether each
token parses (see `isF64Token`). -/
structure Dist where
  name : String
  params : List (List Char)
  values : Option (List Nat)
deriving DecidableEq, Repr

/-- Mirrors `struct Distributions` (distribution.rs). -/
structure Distributions where
  html : Dist
  obj_num : Dist
  obj_size : Dist
deriving DecidableEq, Repr

/-- Loop of `sample_ge` (distribution.rs): up to `tries` draws from the
entropy stream starting at index `idx`; returns the first draw `≥ lower`
together with the next unused index, or the exhausted index on failure. -/
def sample_ge_go (draws : Nat → Nat) (lower : Nat) : Nat → Nat → Option Nat × Nat
  | 0, idx => (none, idx)
  | tries + 1, idx =>
    if lower ≤ draws idx then (some (draws idx), idx + 1)
    else sample_ge_go draws lower tries (idx + 1)

/-- Mirrors `sample_ge` (distribution.rs): at most `SAMPLE_LIMIT` draws; on
exhaustion the error message names the distribution. The entropy index
threads the successive `sample(dist)` calls. -/
def sample_ge (draws : Nat → Nat) (name : String) (lower idx : Nat) :
    Except String (Nat × Nat) :=
  match sample_ge_go draws lower SAMPLE_LIMIT idx with
  | (some v, j) => .ok (v, j)
  | (none, _) => .error ("SAMPLE_LIMIT=30 reached for distribution " ++ name)

/-- Mirrors `sample_ge_many` (distribution.rs): `samples` successive
`sample_ge` calls, collecting results in order and propagating the first
failure. -/
def sample_ge_many (draws : Nat → Nat) (name : String) (lower : Nat) :
    Nat → Nat → Except String (List Nat × Nat)
  | 0, idx => .ok ([], idx)
  | samples + 1, idx =>
    match sample_ge draws name lower idx with
    | .error e => .error e
    | .ok (v, j) =>
      match sample_ge_many draws name lower samples j with
      | .error e => .error e
      | .ok (vs, k) => .ok (v :: vs, k)

theorem sample_ge_go_all_lt (draws : Nat → Nat) (lower : Nat) :
    ∀ tries idx, (∀ i, i < tries → draws (idx + i) < lower) →
      sample_ge_go draws lower tries idx = (none, idx + tries) := by
  intro tries
  induction tries with
  | zero => intro idx _; simp [sample_ge_go]
  | succ t ih =>
    intro idx h
    have h0 : draws idx < lower := by simpa using h 0 (by omega)
    rw [sample_ge_go, if_neg (by omega)]
    rw [ih (idx + 1) (fun i hi => by
      have := h (i + 1) (by omega)
      simpa [Nat.add_assoc, Nat.add_comm 1 i] using this)]
    simp [Nat.add_assoc, Nat.add_comm 1 t]

theorem sample_ge_go_some (draws : Nat → Nat) (lower : Nat) :
    ∀ tries idx, (∃ i, i < tries ∧ lower ≤ draws (idx + i)) →
      ∃ v j, sample_ge_go draws lower tries idx = (some v, j) ∧ lower ≤ v := by
  intro tries
  induction tries with
  | zero => rintro idx ⟨i, hi, _⟩; omega
  | succ t ih =>
    rintro idx ⟨i, hi, hge⟩
    by_cases h0 : lower ≤ draws idx
    · exact ⟨draws idx, idx + 1, by rw [sample_ge_go, if_pos h0], h0⟩
    · have hi0 : i ≠ 0 := by
        rintro rfl
        simp at hge
        omega
      obtain ⟨v, j, hvj, hv⟩ := ih (idx + 1)
        ⟨i - 1, by omega, by
          have : idx + 1 + (i - 1) = idx + i := by omega
          rw [this]; exact hge⟩
      exact ⟨v, j, by rw [sample_ge_go, if_neg h0]; exact hvj, hv⟩

theorem sample_ge_go_ge (draws : Nat → Nat) (lower : Nat) :
    ∀ tries idx v j, sample_ge_go draws lower tries idx = (some v, j) → lower ≤ v := by
  intro tries
  induction tries with
  | zero => intro idx v j h; simp [sample_ge_go] at h
  | succ t ih =>
    intro idx v j h
    rw [sample_ge_go] at h
    by_cases h0 : lower ≤ draws idx
    · rw [if_pos h0] at h
      injection h with h1 h2
      injection h1 with h1
      subst h1
      exact h0
    · rw [if_neg h0] at h
      exact ih (idx + 1) v j h

theorem sample_ge_many_ok (draws : Nat → Nat) (name : String) (lower : Nat) :
    ∀ n idx vs j, sample_ge_many draws name lower n idx = .ok (vs, j) →
      vs.length = n ∧ ∀ v ∈ vs, lower ≤ v := by
  intro n
  induction n with
  | zero =>
    intro idx vs j h
    simp only [sample_ge_many] at h
    injection h with h
    injection h with h1 h2
    subst h1
    simp
  | succ m ih =>
    intro idx vs j h
    simp only [sample_ge_many] at h
    cases h1 : sample_ge draws name lower idx with
    | error e => rw [h1] at h; exact absurd h (by simp)
    | ok p =>
      obtain ⟨v, j'⟩ := p
      rw [h1] at h
      dsimp only at h
      cases h2 : sample_ge_many draws name lower m j' with
      | error e => rw [h2] at h; exact absurd h (by simp)
      | ok q =>
        obtain ⟨vs', k⟩ := q
        rw [h2] at h
        dsimp only at h
        injection h with h
        injection h with h3 h4
        subst h3
        obtain ⟨hl, hall⟩ := ih j' vs' k h2
        have hv : lower ≤ v := by
          rw [sample_ge] at h1
          cases hgo : sample_ge_go draws lower SAMPLE_LIMIT idx with
          | mk o j'' =>
            cases o with
            | none => rw [hgo] at h1; exact absurd h1 (by simp)
            | some w =>
              have hw := sample_ge_go_ge draws lower SAMPLE_LIMIT idx w j'' hgo
              rw [hgo] at h1
              injection h1 with h1
              injection h1 with h5 h6
              subst h5
              exact hw
        constructor
        · simp [hl]
        · intro x hx
          rcases List.mem_cons.mp hx with rfl | hx
          · exact hv
          · exact hall x hx

/-- C4: `sample_ge` returns a qualifying draw as soon as one occurs within
the 30-attempt budget; when all 30 draws fall below the floor it fails with
the exhaustion error naming the distribution, and the loop has consumed
exactly 30 draws (final entropy index `idx + 30`); `sample_ge_many` returns
`n` values all `≥ f` on success, and propagates the exhaustion error (e.g.
under a stub sampler always below the floor). -/
theorem c4_sample_ge_budget (draws : Nat → Nat) (name : String) (f idx n : Nat) :
    ((∃ i, i < SAMPLE_LIMIT ∧ f ≤ draws (idx + i)) →
      ∃ v j, sample_ge draws name f idx = .ok (v, j) ∧ f ≤ v) ∧
    ((∀ i, i < SAMPLE_LIMIT → draws (idx + i) < f) →
      sample_ge draws name f idx =
        .error ("SAMPLE_LIMIT=30 reached for distribution " ++ name) ∧
      sample_ge_go draws f SAMPLE_LIMIT idx = (none, idx + SAMPLE_LIMIT)) ∧
    (∀ vs j, sample_ge_many draws name f n idx = .ok (vs, j) →
      vs.length = n ∧ ∀ v ∈ vs, f ≤ v) ∧
    ((∀ i, draws i < f) → 1 ≤ n →
      sample_ge_many draws name f n idx =
        .error ("SAMPLE_LIMIT=30 reached for distribution " ++ name)) := by
  refine ⟨?_, ?_, ?_, ?_⟩
  · intro hex
    obtain ⟨v, j, hvj, hv⟩ := sample_ge_go_some draws f SAMPLE_LIMIT idx hex
    exact ⟨v, j, by rw [sample_ge, hvj], hv⟩
  · intro hall
    have := sample_ge_go_all_lt draws f SAMPLE_LIMIT idx hall
    exact ⟨by rw [sample_ge, this], this⟩
  · exact fun vs j h => sample_ge_many_ok draws name f n idx vs j h
  · intro hstub hn
    obtain ⟨m, rfl⟩ : ∃ m, n = m + 1 := ⟨n - 1, by omega⟩
    rw [sample_ge_many]
    have herr : sample_ge draws name f idx =
        .error ("SAMPLE_LIMIT=30 reached for distribution " ++ name) := by
      rw [sample_ge, sample_ge_go_all_lt draws f SAMPLE_LIMIT idx
        (fun i _ => hstub (idx + i))]
    rw [herr]

/-- C4 witness: under the stub sampler constantly 0 and floor 1,
`sample_ge` fails with the exhaustion error after consuming exactly
`SAMPLE_LIMIT = 30` draws, and `sample_ge_many` propagates the error. -/
theorem c4_witness :
    sample_ge (fun _ => 0) "LogNormal" 1 0 =
      .error ("SAMPLE_LIMIT=30 reached for distribution " ++ "LogNormal") ∧
    sample_ge_go (fun _ => 0) 1 SAMPLE_LIMIT 0 = (none, 0 + SAMPLE_LIMIT) ∧
    sample_ge_many (fun _ => 0) "LogNormal" 1 2 0 =
      .error ("SAMPLE_LIMIT=30 reached for distribution " ++ "LogNormal") :=
  ⟨((c4_sample_ge_budget (fun _ => 0) "LogNormal" 1 0 2).2.1 (fun i _ => by omega)).1,
   ((c4_sample_ge_budget (fun _ => 0) "LogNormal" 1 0 2).2.1 (fun i _ => by omega)).2,
   (c4_sample_ge_budget (fun _ => 0) "LogNormal" 1 0 2).2.2.2 (fun i => by omega) (by omega)⟩

/-! ### Morphing engine (`morphing.rs`, `deterministic.rs`) -/

/-- Mirrors the fake padding-object literal built in
`morph_from_distribution` / `morph_deterministic` (morphing.rs). -/
def padObject (target_size : Nat) : Object :=
  { kind := .Alpaca, content := [], position := none,
    target_size := some target_size, uri := "pad_object".toList }

/-- Default for guarded list indexing: `objects[next_to_morph]` is only
evaluated by the Rust code under `next_to_morph < initial_obj_no ≤
objects.length`, so the default is never observable. -/
def defaultObject : Object := padObject 0

/-- Insertion step of the ascending-sort model. -/
def insertAsc (x : Nat) : List Nat → List Nat
  | [] => [x]
  | y :: t => if x ≤ y then x :: y :: t else y :: insertAsc x t

/-- Models `Vec::sort` (ascending) on the drawn sizes. -/
def sortAsc : List Nat → List Nat
  | [] => []
  | x :: t => insertAsc x (sortAsc t)

/-- Matching loop of `morph_from_distribution` (morphing.rs): for each target
size in order, either assign it to the object at the cursor (when the cursor
is inside the real prefix, the size covers the content, and — for CSS — also
the 4 comment bytes) advancing the cursor, or append a fake object of that
size. Returns the final object list and cursor. -/
def matchSizes : List Object → Nat → Nat → List Nat → List Object × Nat
  | objects, _, next, [] => (objects, next)
  | objects, initial, next, s :: rest =>
    let o := objects.getD next defaultObject
    let create_new_obj : Bool :=
      if next < initial ∧ o.content.length ≤ s then
        decide (o.kind = ObjectKind.CSS ∧ s < o.content.length + 4)
      else true
    if create_new_obj then
      matchSizes (objects ++ [padObject s]) initial next rest
    else
      matchSizes (objects.set next { o with target_size := some s }) initial (next + 1) rest

/-- Mirrors `morph_from_distribution` (morphing.rs): sample the target count
(floor `min_count`), sample that many sizes (floor 1), sort them ascending,
run the matching loop, and return the objects together with the uris of the
real objects the cursor never reached (the code prints these as the
"no padding was found" warning). -/
def morph_from_distribution (draws : Nat → Nat) (objects : List Object)
    (min_count : Nat) (dists : Distributions) :
    Except String (List Object × List (List Char)) :=
  match sample_ge draws dists.obj_num.name min_count 0 with
  | .error e => .error e
  | .ok (target_count, i1) =>
    match sample_ge_many draws dists.obj_size.name 1 target_count i1 with
    | .error e => .error e
    | .ok (target_sizes, _) =>
      let initial_obj_no := objects.length
      let res := matchSizes objects initial_obj_no 0 (sortAsc target_sizes)
      let missing := ((res.1.take initial_obj_no).drop res.2).map Object.uri
      .ok (res.1, missing)

/-- Mirrors `get_multiples_in_range` (deterministic.rs): range check, then
`n` independent uniform multiples of `obj_size` in `[obj_size,
max_obj_size]`. The `obj_size > max_obj_size` test short-circuits before
the modulo, whose divisor-zero panic is the outer `none`; the uniform draw
on `[1, max_obj_size/obj_size]` is the entropy value reduced modulo the
range width. -/
def get_multiples_in_range (draw : Nat → Nat) (obj_size max_obj_size n : Nat) :
    Option (Except Unit (List Nat)) :=
  if obj_size > max_obj_size then some (.error ())
  else if obj_size = 0 then none
  else if max_obj_size % obj_size ≠ 0 then some (.error ())
  else
    some (.ok ((List.range n).map
      (fun i => (1 + draw i % (max_obj_size / obj_size)) * obj_size)))

/-- Per-object loop of `morph_deterministic` (morphing.rs): assign each real
object `target_size = get_multiple(obj_size, len + 4 for CSS else len)`.
`none` models divergence of `get_multiple` with a zero step. -/
def morph_targets (obj_size : Nat) : List Object → Option (List Object)
  | [] => some []
  | o :: rest =>
    let min_size := o.content.length + (if o.kind = ObjectKind.CSS then 4 else 0)
    match get_multiple obj_size min_size with
    | none => none
    | some t =>
      match morph_targets obj_size rest with
      | none => none
      | some rest' => some ({ o with target_size := some t } :: rest')

/-- Mirrors `morph_deterministic` (morphing.rs): target count
`get_multiple(obj_num, min_count)`, per-object targets, then
`target_count - min_count` fake objects sized by `get_multiples_in_range`.
The outer `none` collects the divergence/panic cases. -/
def morph_deterministic (draw : Nat → Nat) (objects : List Object)
    (min_count obj_num obj_size max_obj_size : Nat) :
    Option (Except Unit (List Object)) :=
  match get_multiple obj_num min_count with
  | none => none
  | some target_count =>
    match morph_targets obj_size objects with
    | none => none
    | some objects' =>
      let fake_objects_count := target_count - min_count
      match get_multiples_in_range draw obj_size max_obj_size fake_objects_count with
      | none => none
      | some (.error e) => some (.error e)
      | some (.ok sizes) => some (.ok (objects' ++ sizes.map padObject))

/-- Unfolding equation for one step of the matching loop, with the Rust
`create_new_obj` boolean made explicit. -/
theorem matchSizes_cons (objects : List Object) (initial next s : Nat) (rest : List Nat) :
    matchSizes objects initial next (s :: rest) =
      if (if next < initial ∧ (objects.getD next defaultObject).content.length ≤ s
          then decide ((objects.getD next defaultObject).kind = ObjectKind.CSS ∧
            s < (objects.getD next defaultObject).content.length + 4)
          else true) = true
      then matchSizes (objects ++ [padObject s]) initial next rest
      else matchSizes (objects.set next
        { objects.getD next defaultObject with target_size := some s })
        initial (next + 1) rest := rfl

theorem matchSizes_invariant (sizes : List Nat) :
    ∀ objects initial next,
      next ≤ (matchSizes objects initial next sizes).2 ∧
      objects.length ≤ (matchSizes objects initial next sizes).1.length ∧
      (∀ i, (matchSizes objects initial next sizes).2 ≤ i → i < objects.length →
        (matchSizes objects initial next sizes).1.getD i defaultObject =
          objects.getD i defaultObject) := by
  induction sizes with
  | nil => intro objects initial next; exact ⟨le_rfl, le_rfl, fun i _ _ => rfl⟩
  | cons s rest ih =>
    intro objects initial next
    rw [matchSizes_cons]
    by_cases hB : (if next < initial ∧ (objects.getD next defaultObject).content.length ≤ s
        then decide ((objects.getD next defaultObject).kind = ObjectKind.CSS ∧
          s < (objects.getD next defaultObject).content.length + 4)
        else true) = true
    · rw [if_pos hB]
      obtain ⟨h1, h2, h3⟩ := ih (objects ++ [padObject s]) initial next
      refine ⟨h1, le_trans (by simp) h2, ?_⟩
      intro i hi hilen
      rw [h3 i hi (by simp only [List.length_append, List.length_singleton]; omega)]
      exact List.getD_append _ _ _ _ hilen
    · rw [if_neg hB]
      obtain ⟨h1, h2, h3⟩ := ih
        (objects.set next
          { objects.getD next defaultObject with target_size := some s })
        initial (next + 1)
      refine ⟨by omega, le_trans (by simp) h2, ?_⟩
      intro i hi hilen
      rw [h3 i (by omega) (by simpa using hilen)]
      rw [List.getD_eq_getElem?_getD, List.getD_eq_getElem?_getD,
        List.getElem?_set_ne (by omega)]
      exact (List.getD_eq_getElem?_getD _ _ _).symm

/-- Concrete real resource of content length 5, for the C2 evaluations. -/
def exObj1 : Object :=
  { kind := .IMG, content := List.replicate 5 0, position := some 1,
    target_size := none, uri := "a.png".toList }

/-- Concrete CSS real resource of content length 50, for the C2 evaluations. -/
def exObj2 : Object :=
  { kind := .CSS, content := List.replicate 50 0, position := some 2,
    target_size := none, uri := "b.css".toList }

/-- Entropy stream delivering count 3, then sizes 10, 53, 100. -/
def exDraws : Nat → Nat := fun i => [3, 10, 53, 100].getD i 0

/-- Placeholder distribution bundle (only the names are ever consumed). -/
def exDists : Distributions :=
  { html := { name := "custom", params := [], values := none }
    obj_num := { name := "custom", params := [], values := none }
    obj_size := { name := "custom", params := [], values := none } }

/-- C2 counterexample: on the spec's example — real lengths [5, 50], the
second a CSS resource, drawn sizes [10, 53, 100] — the code pads resource 1
with 10, makes 53 synthetic (53 < 54), but then pads resource 2 with 100
(the cursor did not advance at 53, and 100 ≥ 54): resource 2 is not left
unmatched and the diagnostic list of unpadded resources is empty, contrary
to the claimed outcome. -/
theorem c2_counterexample :
    morph_from_distribution exDraws [exObj1, exObj2] 2 exDists =
      .ok ([{ exObj1 with target_size := some 10 },
            { exObj2 with target_size := some 100 },
            padObject 53], []) := by
  rfl

/-- C2 (corrected): each drawn size s is assigned to the cursor's resource
and the cursor advances exactly when the cursor is inside the real prefix
and s covers the resource's requirement (content length, plus 4 for CSS,
equality matching); otherwise a synthetic resource of size s is appended
and the cursor stays. Real resources the cursor never reaches keep
target_size unset and are exactly the ones reported, without aborting. On
the spec's example the outcome differs from the claim: 10 pads resource 1,
53 becomes synthetic, 100 pads the CSS resource 2, and nothing is reported
unpadded. -/
theorem c2_greedy_matching_amended :
    (∀ objects initial next s rest,
      next < initial →
      (objects.getD next defaultObject).content.length ≤ s →
      ((objects.getD next defaultObject).kind = ObjectKind.CSS →
        (objects.getD next defaultObject).content.length + 4 ≤ s) →
      matchSizes objects initial next (s :: rest) =
        matchSizes (objects.set next
          { objects.getD next defaultObject with target_size := some s })
          initial (next + 1) rest) ∧
    (∀ objects initial next s rest,
      ¬ (next < initial ∧ (objects.getD next defaultObject).content.length ≤ s ∧
          ((objects.getD next defaultObject).kind = ObjectKind.CSS →
            (objects.getD next defaultObject).content.length + 4 ≤ s)) →
      matchSizes objects initial next (s :: rest) =
        matchSizes (objects ++ [padObject s]) initial next rest) ∧
    (∀ draws objects dists result missing,
      (∀ o ∈ objects, o.target_size = none) →
      morph_from_distribution draws objects objects.length dists = .ok (result, missing) →
      ∃ cursor,
        missing = ((result.take objects.length).drop cursor).map Object.uri ∧
        ∀ o ∈ (result.take objects.length).drop cursor, o.target_size = none) ∧
    morph_from_distribution exDraws [exObj1, exObj2] 2 exDists =
      .ok ([{ exObj1 with target_size := some 10 },
            { exObj2 with target_size := some 100 },
            padObject 53], []) := by
  refine ⟨?_, ?_, ?_, by rfl⟩
  · intro objects initial next s rest h1 h2 h3
    rw [matchSizes_cons]
    have hcond : next < initial ∧
        (objects.getD next defaultObject).content.length ≤ s := ⟨h1, h2⟩
    have hdec : decide ((objects.getD next defaultObject).kind = ObjectKind.CSS ∧
        s < (objects.getD next defaultObject).content.length + 4) = false := by
      simp only [decide_eq_false_iff_not, not_and, not_lt]
      intro hcss
      exact h3 hcss
    rw [if_neg (by rw [if_pos hcond, hdec]; simp)]
  · intro objects initial next s rest hneg
    rw [matchSizes_cons]
    by_cases hcond : next < initial ∧
        (objects.getD next defaultObject).content.length ≤ s
    · have hdec : decide ((objects.getD next defaultObject).kind = ObjectKind.CSS ∧
          s < (objects.getD next defaultObject).content.length + 4) = true := by
        simp only [decide_eq_true_eq]
        by_contra hno
        push_neg at hno
        exact hneg ⟨hcond.1, hcond.2, fun hcss => hno hcss⟩
      rw [if_pos (by rw [if_pos hcond, hdec])]
    · rw [if_pos (by rw [if_neg hcond])]
  · intro draws objects dists result missing hreal hok
    rw [morph_from_distribution] at hok
    cases h1 : sample_ge draws dists.obj_num.name objects.length 0 with
    | error e => rw [h1] at hok; exact absurd hok (by simp)
    | ok p =>
      obtain ⟨target_count, i1⟩ := p
      rw [h1] at hok
      dsimp only at hok
      cases h2 : sample_ge_many draws dists.obj_size.name 1 target_count i1 with
      | error e => rw [h2] at hok; exact absurd hok (by simp)
      | ok q =>
        obtain ⟨target_sizes, i2⟩ := q
        rw [h2] at hok
        dsimp only at hok
        injection hok with hok
        injection hok with hres hmiss
        obtain ⟨hc1, hc2, hc3⟩ := matchSizes_invariant (sortAsc target_sizes)
          objects objects.length 0
        refine ⟨(matchSizes objects objects.length 0 (sortAsc target_sizes)).2,
          ?_, ?_⟩
        · rw [← hmiss, ← hres]
        · intro o ho
          rw [← hres] at ho
          obtain ⟨j, hj, hjo⟩ := List.mem_iff_getElem.mp ho
          set ms := matchSizes objects objects.length 0 (sortAsc target_sizes) with hms
          have hjlen : ms.2 + j < objects.length := by
            have := hj
            simp only [List.length_drop, List.length_take] at this
            omega
          have hb2 : ms.2 + j < ms.1.length := by omega
          have hgetj : ((ms.1.take objects.length).drop ms.2)[j] = ms.1[ms.2 + j] := by
            rw [List.getElem_drop, List.getElem_take]
          have hmem : ms.1.getD (ms.2 + j) defaultObject =
              objects.getD (ms.2 + j) defaultObject :=
            hc3 (ms.2 + j) (by omega) hjlen
          have hoelem : o = ms.1.getD (ms.2 + j) defaultObject := by
            rw [List.getD_eq_getElem ms.1 defaultObject (by omega), ← hgetj, hjo]
          have : objects.getD (ms.2 + j) defaultObject ∈ objects := by
            rw [List.getD_eq_getElem objects defaultObject hjlen]
            exact List.getElem_mem hjlen
          rw [hoelem, hmem]
          exact hreal _ this

/-- C2 witness: matching-step dichotomy instantiated — size 10 at cursor 0
over two resources is assigned (10 covers length 5), and size 53 at the
CSS resource of length 50 spawns a synthetic object instead. -/
theorem c2_witness :
    matchSizes [exObj1, exObj2] 2 0 [10] =
      matchSizes ([exObj1, exObj2].set 0
        { [exObj1, exObj2].getD 0 defaultObject with target_size := some 10 }) 2 1 [] ∧
    matchSizes [exObj1, exObj2] 2 1 [53] =
      matchSizes ([exObj1, exObj2] ++ [padObject 53]) 2 1 [] :=
  ⟨c2_greedy_matching_amended.1 [exObj1, exObj2] 2 0 10 []
      (by omega) (by simp [exObj1]) (fun h => by simp [exObj1] at h),
   c2_greedy_matching_amended.2.1 [exObj1, exObj2] 2 1 53 []
      (by
        rintro ⟨-, -, hcss⟩
        have := hcss (by rfl)
        simp [exObj2] at this)⟩

theorem morph_targets_spec (obj_size : Nat) (hs : 1 ≤ obj_size) :
    ∀ objects, ∃ l, morph_targets obj_size objects = some l ∧
      l.length = objects.length ∧
      ∀ i, i < objects.length →
        ∃ t, get_multiple obj_size
            ((objects.getD i defaultObject).content.length +
              (if (objects.getD i defaultObject).kind = ObjectKind.CSS then 4 else 0)) =
            some t ∧
          l.getD i defaultObject =
            { objects.getD i defaultObject with target_size := some t } ∧
          (objects.getD i defaultObject).content.length +
            (if (objects.getD i defaultObject).kind = ObjectKind.CSS then 4 else 0) ≤ t := by
  intro objects
  induction objects with
  | nil => exact ⟨[], rfl, rfl, fun i hi => absurd hi (by simp)⟩
  | cons o rest ih =>
    obtain ⟨v, hv, _, hge, _, _⟩ := get_multiple_spec obj_size
      (o.content.length + (if o.kind = ObjectKind.CSS then 4 else 0)) hs
    obtain ⟨l, hl, hlen, hspec⟩ := ih
    refine ⟨{ o with target_size := some v } :: l, ?_, by simp [hlen], ?_⟩
    · rw [morph_targets]
      rw [hv, hl]
    · intro i hi
      cases i with
      | zero => exact ⟨v, hv, rfl, hge⟩
      | succ j =>
        have hj : j < rest.length := by simpa using hi
        simpa using hspec j hj

/-- C3 counterexample: with `obj_size = 0` and `max_obj_size = 0` the range
condition `obj_size ≤ max_obj_size` holds and `max_obj_size` is (trivially)
a multiple of `obj_size`, yet the strategy does not return Ok: the modulo
in `get_multiples_in_range` divides by zero (a panic, modelled `none`)
instead of the claimed success / InvalidRange dichotomy. -/
theorem c3_counterexample :
    ((0 : Nat) ≤ 0) ∧ ((0 : Nat) ∣ 0) ∧
    morph_deterministic exRnd [] 0 1 0 0 = none := by
  exact ⟨le_rfl, dvd_rfl, rfl⟩

/-- C3 (corrected): with positive steps `obj_num ≥ 1` and `obj_size ≥ 1`,
`obj_size ≤ max_obj_size` and `max_obj_size` a multiple of `obj_size`, the
deterministic strategy returns Ok with `target_count = get_multiple(obj_num,
n)`; every real resource gets `target_size = get_multiple(obj_size, length
+ 4 for CSS else length) ≥` its minimum; exactly `target_count - n` fake
objects are appended, each a multiple of `obj_size` within `[obj_size,
max_obj_size]`. For `obj_size ≥ 1`, `get_multiples_in_range` fails with
InvalidRange exactly when `obj_size > max_obj_size` or `max_obj_size` is
not a multiple of `obj_size`; at `obj_size = 0` it instead panics on the
modulo. -/
theorem c3_deterministic_amended (draw : Nat → Nat) (objects : List Object)
    (obj_num obj_size max_obj_size : Nat)
    (hnum : 1 ≤ obj_num) (hsize : 1 ≤ obj_size)
    (hle : obj_size ≤ max_obj_size) (hdvd : obj_size ∣ max_obj_size) :
    (∃ target_count objs',
      get_multiple obj_num objects.length = some target_count ∧
      morph_deterministic draw objects objects.length obj_num obj_size max_obj_size =
        some (.ok objs') ∧
      objs'.length = objects.length + (target_count - objects.length) ∧
      (∀ i, i < objects.length →
        ∃ t, get_multiple obj_size
            ((objects.getD i defaultObject).content.length +
              (if (objects.getD i defaultObject).kind = ObjectKind.CSS then 4 else 0)) =
            some t ∧
          (objs'.getD i defaultObject).target_size = some t ∧
          (objects.getD i defaultObject).content.length +
            (if (objects.getD i defaultObject).kind = ObjectKind.CSS then 4 else 0) ≤ t) ∧
      (∀ o ∈ objs'.drop objects.length, o.kind = ObjectKind.Alpaca ∧
        ∃ sz, o.target_size = some sz ∧ obj_size ∣ sz ∧ obj_size ≤ sz ∧
          sz ≤ max_obj_size)) ∧
    (∀ step mx n, 1 ≤ step →
      (get_multiples_in_range draw step mx n = some (.error ()) ↔
        (mx < step ∨ ¬ step ∣ mx))) := by
  constructor
  · obtain ⟨tc, htc, _, _, _, _⟩ := get_multiple_spec obj_num objects.length hnum
    obtain ⟨l, hl, hlen, hspec⟩ := morph_targets_spec obj_size hsize objects
    have hq : 1 ≤ max_obj_size / obj_size := (Nat.one_le_div_iff (by omega)).mpr hle
    have hmod : max_obj_size % obj_size = 0 := by
      obtain ⟨k, rfl⟩ := hdvd
      exact Nat.mul_mod_right obj_size k
    have hrange : get_multiples_in_range draw obj_size max_obj_size
        (tc - objects.length) = some (.ok ((List.range (tc - objects.length)).map
          (fun i => (1 + draw i % (max_obj_size / obj_size)) * obj_size))) := by
      rw [get_multiples_in_range, if_neg (by omega), if_neg (by omega),
        if_neg (by omega)]
    set sizes := (List.range (tc - objects.length)).map
      (fun i => (1 + draw i % (max_obj_size / obj_size)) * obj_size) with hsizes
    refine ⟨tc, l ++ sizes.map padObject, htc, ?_, ?_, ?_, ?_⟩
    · rw [morph_deterministic, htc]
      dsimp only
      rw [hl]
      dsimp only
      rw [hrange]
    · simp [hsizes, hlen]
    · intro i hi
      obtain ⟨t, ht, hlt, hget⟩ := hspec i hi
      refine ⟨t, ht, ?_, hget⟩
      rw [List.getD_append _ _ _ _ (by omega), hlt]
    · intro o ho
      rw [← hlen, List.drop_left] at ho
      obtain ⟨sz, hsz, rfl⟩ := List.mem_map.mp ho
      obtain ⟨j, _, rfl⟩ := List.mem_map.mp hsz
      refine ⟨rfl, (1 + draw j % (max_obj_size / obj_size)) * obj_size, rfl,
        dvd_mul_left obj_size _, ?_, ?_⟩
      · calc obj_size = 1 * obj_size := (one_mul _).symm
          _ ≤ (1 + draw j % (max_obj_size / obj_size)) * obj_size :=
            Nat.mul_le_mul_right _ (by omega)
      · have hmlt : draw j % (max_obj_size / obj_size) < max_obj_size / obj_size :=
          Nat.mod_lt _ (by omega)
        calc (1 + draw j % (max_obj_size / obj_size)) * obj_size
            ≤ (max_obj_size / obj_size) * obj_size :=
              Nat.mul_le_mul_right _ (by omega)
          _ = max_obj_size := Nat.div_mul_cancel hdvd
  · intro step mx n hstep
    rw [get_multiples_in_range]
    by_cases h1 : step > mx
    · rw [if_pos h1]
      exact ⟨fun _ => Or.inl h1, fun _ => rfl⟩
    · rw [if_neg h1, if_neg (by omega)]
      by_cases h2 : mx % step ≠ 0
      · rw [if_pos h2]
        have : ¬ step ∣ mx := by
          intro hd
          obtain ⟨k, rfl⟩ := hd
          exact h2 (Nat.mul_mod_right step k)
        exact ⟨fun _ => Or.inr this, fun _ => rfl⟩
      · rw [if_neg h2]
        push_neg at h2
        have hdvd2 : step ∣ mx := Nat.dvd_of_mod_eq_zero h2
        constructor
        · intro h
          exact absurd h (by simp)
        · rintro (hlt | hnd)
          · omega
          · exact absurd hdvd2 hnd

/-- C3 witness: one IMG resource of length 5, `obj_num = 2`, `obj_size = 3`,
`max_obj_size = 6`: the strategy succeeds with the claimed shape. -/
theorem c3_witness :
    (∃ target_count objs',
      get_multiple 2 [exObj1].length = some target_count ∧
      morph_deterministic exRnd [exObj1] [exObj1].length 2 3 6 = some (.ok objs') ∧
      objs'.length = [exObj1].length + (target_count - [exObj1].length) ∧
      (∀ i, i < [exObj1].length →
        ∃ t, get_multiple 3
            (([exObj1].getD i defaultObject).content.length +
              (if ([exObj1].getD i defaultObject).kind = ObjectKind.CSS then 4 else 0)) =
            some t ∧
          (objs'.getD i defaultObject).target_size = some t ∧
          ([exObj1].getD i defaultObject).content.length +
            (if ([exObj1].getD i defaultObject).kind = ObjectKind.CSS then 4 else 0) ≤ t) ∧
      (∀ o ∈ objs'.drop [exObj1].length, o.kind = ObjectKind.Alpaca ∧
        ∃ sz, o.target_size = some sz ∧ 3 ∣ sz ∧ 3 ≤ sz ∧ sz ≤ 6)) ∧
    (∀ step mx n, 1 ≤ step →
      (get_multiples_in_range exRnd step mx n = some (.error ()) ↔
        (mx < step ∨ ¬ step ∣ mx))) :=
  c3_deterministic_amended exRnd [exObj1] 2 3 6 (by omega) (by omega) (by omega)
    (by omega)

/-! ### Resource discovery: path resolution (`dom.rs`) -/

/-- Index of the last occurrence of `c` in `l`. Helper for the `std::path`
models below. -/
def lastIdxOf (c : Char) : List Char → Option Nat
  | [] => none
  | x :: t =>
    match lastIdxOf c t with
    | some i => some (i + 1)
    | none => if x = c then some 0 else none

/-- Models `std::path::Path::parent` for the slash-separated html paths used
here (paths without trailing slashes, the only forms the claims exercise):
everything before the last `/`; `none` for the root `/` and the empty
path. -/
def parentPath (l : List Char) : Option (List Char) :=
  if l = [] ∨ l = ['/'] then none
  else
    match lastIdxOf '/' l with
    | none => some []
    | some 0 => some ['/']
    | some i => some (l.take i)

/-- Mirrors the dot-resolving loop of `uri_to_abs_fs_path` (dom.rs): empty
and `.` components are skipped, `..` pops the stack when non-empty (and is
ignored on an empty stack), anything else pushes `/component`. The stack is
kept reversed: `Vec::push` is cons and `Vec::pop` is tail. -/
def resolveStack : List (List Char) → List (List Char) → List (List Char)
  | [], stack => stack
  | comp :: rest, stack =>
    if comp = [] ∨ comp = ['.'] then resolveStack rest stack
    else if comp = ['.', '.'] then resolveStack rest stack.tail
    else resolveStack rest (('/' :: comp) :: stack)

/-- Mirrors `uri_to_abs_fs_path` (dom.rs). `some none` is the skip for
off-origin urls and failed containment; `some (some path)` is a resolved
path. The outer `none` models panics: `Path::parent().unwrap()` on a
parentless html path, and the byte slicings `html_path[..alias]` /
`absolute[..alias]` when `alias` exceeds the sliced string's length
(contents are ASCII, so byte indices are character indices). -/
def uri_to_abs_fs_path (root relative html_path : List Char) (aliasLen : Nat) :
    Option (Option (List Char)) :=
  if "https://".toList.isPrefixOf relative ∨ "http://".toList.isPrefixOf relative then
    some none
  else
    let step1 : Option (List Char) :=
      if relative.headD ' ' = '/' then some relative
      else
        match parentPath html_path with
        | none => none
        | some base =>
          if base.getLastD ' ' = '/' then some (base ++ relative)
          else some (base ++ '/' :: relative)
    match step1 with
    | none => none
    | some fs_relative =>
      let components := splitOnL ['/'] fs_relative
      let absolute := ((resolveStack components []).reverse).flatten
      if html_path.length < aliasLen then none
      else if absolute.length < aliasLen then none
      else if html_path.take aliasLen ≠ absolute.take aliasLen then some none
      else some (some (root ++ absolute.drop aliasLen))

/-- C1 (code bug): the spec's own containment example panics instead of
skipping. Reference `../../../etc/passwd` from `/var/www/site/index.html`
normalizes — with `..` popping the stack — to `/etc/passwd` (11 bytes);
with `alias = 13` (the length of `/var/www/site`) the containment check
slices `absolute[..13]` past the end of the 11-byte string, which panics
(modelled `none`) rather than returning the skip (`some none`) the claim
describes. -/
theorem c1_path_containment_panics :
    ((resolveStack (splitOnL ['/'] "/var/www/site/../../../etc/passwd".toList) []).reverse).flatten =
      "/etc/passwd".toList ∧
    ("/etc/passwd".toList.length < 13) ∧
    uri_to_abs_fs_path "/var/www/site".toList "../../../etc/passwd".toList
      "/var/www/site/index.html".toList 13 = none := by
  refine ⟨by rfl, by decide, by rfl⟩

/-! ### Distribution spec parsing (`distribution.rs`) -/

/-- Models the token grammar accepted by `str::parse::<f64>` for ordinary
finite decimals: optional sign, then either digits, digits-dot-digits,
digits-dot, or dot-digits. (Exponent and `inf`/`nan` spellings are omitted;
no claim depends on them.) -/
def isF64Token (l : List Char) : Bool :=
  let l1 := if l.headD ' ' = '+' ∨ l.headD ' ' = '-' then l.tail else l
  match splitOnL ['.'] l1 with
  | [a] => !a.isEmpty && a.all Char.isDigit
  | [a, b] =>
    (!a.isEmpty && a.all Char.isDigit && b.all Char.isDigit) ||
    (a.isEmpty && !b.isEmpty && b.all Char.isDigit)
  | _ => false

/-- Models `str::lines`: split on newlines, one trailing empty line
removed (carriage returns are not modelled). -/
def linesOf (l : List Char) : List (List Char) :=
  let parts := splitOnL ['\n'] l
  if parts.getLastD [] = [] then parts.dropLast else parts

/-- Models `str::split_whitespace` for space-separated tokens (runs of
spaces collapse; tab forms are not modelled). -/
def splitWS (l : List Char) : List (List Char) :=
  (splitOnL [' '] l).filter (fun t => t ≠ [])

/-- Line loop of the `.dist`-file branch of `parse_given_dist`
(distribution.rs): each line must hold exactly two tokens; the value token
is parsed with `.parse().unwrap()` — a panic (`none`) on a malformed token —
and likewise the probability token. -/
def parseDistLines (dist : String) :
    List (List Char) → Option (Except String (List Nat × List (List Char)))
  | [] => some (.ok ([], []))
  | line :: rest =>
    let v := splitWS line
    if v.length ≠ 2 then
      some (.error ("invalid dist file " ++ dist ++ ", line " ++ String.mk line))
    else
      match parseUsize (v.headD []) with
      | none => none
      | some value =>
        if isF64Token (v.getD 1 []) = false then none
        else
          match parseDistLines dist rest with
          | none => none
          | some (.error e) => some (.error e)
          | some (.ok (vs, ps)) => some (.ok (value :: vs, v.getD 1 [] :: ps))

/-- Mirrors `parse_given_dist` (distribution.rs). `readFile` injects
`fs::read_to_string`. In the `Name/p1,p2,...` branch the parameters are
parsed — each with `.unwrap()`, panicking (`none`) on a malformed numeric
token — before the name is checked; unknown names and wrong arity return
the code's error strings. -/
def parse_given_dist (readFile : String → Except String String) (dist : String) :
    Option (Except String Dist) :=
  if ".dist".toList.isSuffixOf dist.toList then
    match readFile dist with
    | .error e => some (.error e)
    | .ok data =>
      match parseDistLines dist (linesOf data.toList) with
      | none => none
      | some (.error e) => some (.error e)
      | some (.ok (values, probs)) =>
        some (.ok { name := "custom", params := probs, values := some values })
  else
    let tokens := splitOnL ['/'] dist.toList
    if tokens.length ≠ 2 then some (.error ("invalid distribution " ++ dist))
    else
      let rawParams := splitOnL [','] (tokens.getD 1 [])
      if rawParams.any (fun t => isF64Token t = false) then none
      else
        let name := tokens.headD []
        match (if name = "Normal".toList then some 2
               else if name = "LogNormal".toList then some 2
               else if name = "Exp".toList then some 1
               else if name = "Poisson".toList then some 1
               else if name = "Binomial".toList then some 2
               else if name = "Gamma".toList then some 2
               else none : Option Nat) with
        | none => some (.error ("invalid distribution " ++ dist))
        | some needed =>
          if rawParams.length ≠ needed then
            some (.error (String.mk name ++ " distribution requires " ++
              toString needed ++ " params, " ++ toString rawParams.length ++ " given"))
          else
            some (.ok { name := String.mk name, params := rawParams,
                        values := none })

/-- Mirrors `Distributions::from` (distribution.rs): the three component
distributions parsed in order, the first failure (or panic) propagating. -/
def Distributions.from (readFile : String → Except String String)
    (dist_html dist_obj_num dist_obj_size : String) :
    Option (Except String Distributions) :=
  match parse_given_dist readFile dist_html with
  | none => none
  | some (.error e) => some (.error e)
  | some (.ok h) =>
    match parse_given_dist readFile dist_obj_num with
    | none => none
    | some (.error e) => some (.error e)
    | some (.ok num) =>
      match parse_given_dist readFile dist_obj_size with
      | none => none
      | some (.error e) => some (.error e)
      | some (.ok sz) => some (.ok { html := h, obj_num := num, obj_size := sz })

/-- File reader stub: no file exists. -/
def exRead : String → Except String String := fun _ => .error "no file"

/-- C6 (code bug): a malformed numeric token does not produce an `Err` — the
`.unwrap()` in the parameter parsing panics (modelled `none`) before the
name is even checked. Unknown names and wrong arity do produce the error
values, well-formed specs parse, and `Distributions::from` propagates the
panic, so a spec like `Normal/abc` crashes construction instead of failing
cleanly. -/
theorem c6_parse_dist_panics :
    parse_given_dist exRead "Normal/abc" = none ∧
    parse_given_dist exRead "Bogus/1.5" =
      some (.error "invalid distribution Bogus/1.5") ∧
    parse_given_dist exRead "Normal/1.5" =
      some (.error "Normal distribution requires 2 params, 1 given") ∧
    parse_given_dist exRead "Normal/1.5,2" =
      some (.ok { name := "Normal", params := ["1.5".toList, "2".toList],
                  values := none }) ∧
    Distributions.from exRead "Normal/1,1" "Normal/abc" "Normal/1,1" = none := by
  refine ⟨by rfl, by rfl, by rfl, by rfl, by rfl⟩

/-! ### Reference rewriter (`morphing.rs`) -/

/-- Models `std::path::Path::extension` for the uri strings occurring here:
the part of the final `/`-component after its last dot — `none` when that
component has no dot, only a leading dot, or is the special `..` component.
(Trailing-slash paths, where `file_name` backs up over the slash, are not
modelled; no claim exercises them.) -/
def extensionOf (path : List Char) : Option (List Char) :=
  let fname := (splitOnL ['/'] path).getLastD []
  if fname = ['.', '.'] then none
  else
    match lastIdxOf '.' fname with
    | none => none
    | some 0 => none
    | some i => some (fname.drop (i + 1))

/-- Mirrors the link rewriting of `append_ref` (morphing.rs): the extension
is unwrapped — a panic (`none`) when the path has none; the parameter is
appended with `&` when the extension contains `?`, else with `?`. -/
def append_ref_link (link : List Char) (target_size : Nat) : Option (List Char) :=
  match extensionOf link with
  | none => none
  | some fext =>
    let pre : Char := if fext.contains '?' then '&' else '?'
    some (link ++ pre :: (alpacaMarker ++ natDigits target_size))

/-- Query string of a uri: everything after the first `?` (empty when there
is none). Models the query the web server later hands `morph_object`. -/
def queryOf (url : List Char) : List Char :=
  match findOcc ['?'] url with
  | none => []
  | some i => url.drop (i + 1)

/-- Rewriting loop of `insert_objects_refs` (morphing.rs) over the real
objects: objects without a target size are skipped; for the rest the
reference read back from the document (the object's uri) is rewritten by
`append_ref_link`, and its `unwrap` panic propagates (`none`). The DOM
splicing itself is abstracted away: the rewritten links are returned. -/
def insert_objects_refs_links : List Object → Option (List (List Char))
  | [] => some []
  | o :: rest =>
    match o.target_size with
    | none => insert_objects_refs_links rest
    | some t =>
      match append_ref_link o.uri t with
      | none => none
      | some l =>
        match insert_objects_refs_links rest with
        | none => none
        | some ls => some (l :: ls)

/-- Mirrors `insert_objects_refs` (morphing.rs) on the real prefix
`objects[0..n]`. -/
def insert_objects_refs (objects : List Object) (n : Nat) : Option (List (List Char)) :=
  insert_objects_refs_links (objects.take n)

theorem lastIdxOf_eq_none {c : Char} : ∀ {l : List Char}, c ∉ l → lastIdxOf c l = none := by
  intro l
  induction l with
  | nil => intro _; rfl
  | cons x t ih =>
    intro h
    have hx : ¬ (x = c) := by
      intro hx
      subst hx
      exact h (List.mem_cons_self x t)
    rw [lastIdxOf, ih (fun hm => h (List.mem_cons_of_mem x hm)), if_neg hx]

theorem insert_objects_refs_links_panics :
    ∀ l : List Object, (∃ o ∈ l, o.target_size.isSome ∧ extensionOf o.uri = none) →
      insert_objects_refs_links l = none := by
  intro l
  induction l with
  | nil => rintro ⟨o, ho, _⟩; exact absurd ho (by simp)
  | cons x t ih =>
    rintro ⟨o, ho, hsome, hext⟩
    rcases List.mem_cons.mp ho with rfl | hmem
    · obtain ⟨v, hv⟩ := Option.isSome_iff_exists.mp hsome
      rw [insert_objects_refs_links, hv]
      dsimp only
      rw [append_ref_link, hext]
    · rw [insert_objects_refs_links]
      have ht := ih ⟨o, hmem, hsome, hext⟩
      cases hx : x.target_size with
      | none => exact ht
      | some v =>
        dsimp only
        cases hal : append_ref_link x.uri v with
        | none => rfl
        | some lnk => rw [ht]

/-- C10 (confirmed): a reference path whose final component has no dot has
no extension; for a real object with an assigned target size and such a
uri, `append_ref_link` panics on the unwrapped extension (`none`), and the
rewriting loop of `insert_objects_refs` propagates the panic instead of
rewriting or skipping. -/
theorem c10_append_ref_panics (objects : List Object) (n : Nat) (o : Object)
    (ho : o ∈ objects.take n) (ht : o.target_size.isSome)
    (hext : extensionOf o.uri = none) :
    (∀ link : List Char, '.' ∉ (splitOnL ['/'] link).getLastD [] →
      extensionOf link = none) ∧
    (∀ t, append_ref_link o.uri t = none) ∧
    insert_objects_refs objects n = none := by
  refine ⟨?_, ?_, ?_⟩
  · intro link hdot
    rw [extensionOf]
    have hne : (splitOnL ['/'] link).getLastD [] ≠ ['.', '.'] := by
      intro h
      exact hdot (h ▸ List.mem_cons_self '.' ['.'])
    rw [if_neg hne, lastIdxOf_eq_none hdot]
  · intro t
    rw [append_ref_link, hext]
  · exact insert_objects_refs_links_panics _ ⟨o, ho, ht, hext⟩

/-- Concrete real object whose uri `logo` has no extension. -/
def exNoExt : Object := { exObj1 with uri := "logo".toList, target_size := some 5 }

/-- C10 witness: an image object with uri `logo` (no dot) and an assigned
target size makes the rewriting loop panic. -/
theorem c10_witness :
    (∀ link : List Char, '.' ∉ (splitOnL ['/'] link).getLastD [] →
      extensionOf link = none) ∧
    (∀ t, append_ref_link exNoExt.uri t = none) ∧
    insert_objects_refs [exNoExt] 1 = none :=
  c10_append_ref_panics [exNoExt] 1 exNoExt (by simp) (by rfl) (by rfl)

/-! ### Round-trip lemmas for the query parameter -/

theorem mem_of_isPrefixOf {sep l : List Char} (h : sep.isPrefixOf l = true) :
    ∀ c ∈ sep, c ∈ l :=
  fun _ hc => (List.isPrefixOf_iff_prefix.mp h).subset hc

theorem findOcc_eq_none {sep l : List Char} {c : Char} (hc : c ∈ sep) (hl : c ∉ l) :
    findOcc sep l = none := by
  induction l with
  | nil =>
    rw [findOcc, if_neg]
    intro he
    rw [List.isEmpty_iff] at he
    subst he
    exact hl hc
  | cons x t ih =>
    rw [findOcc, if_neg, ih (fun hm => hl (List.mem_cons_of_mem x hm))]
    · rfl
    · intro hpre
      exact hl (mem_of_isPrefixOf hpre c hc)

theorem findOcc_some_isPrefixOf {sep : List Char} :
    ∀ {l : List Char} {i : Nat}, findOcc sep l = some i →
      sep.isPrefixOf (l.drop i) = true ∧ i + sep.length ≤ l.length := by
  intro l
  induction l with
  | nil =>
    intro i h
    rw [findOcc] at h
    by_cases he : sep.isEmpty
    · rw [if_pos he] at h
      injection h with h
      subst h
      rw [List.isEmpty_iff] at he
      subst he
      exact ⟨rfl, by simp⟩
    · rw [if_neg he] at h
      exact absurd h (by simp)
  | cons x t ih =>
    intro i h
    rw [findOcc] at h
    by_cases hpre : sep.isPrefixOf (x :: t) = true
    · rw [if_pos hpre] at h
      injection h with h
      subst h
      refine ⟨hpre, ?_⟩
      have := (List.isPrefixOf_iff_prefix.mp hpre).length_le
      omega
    · rw [if_neg hpre] at h
      cases hfind : findOcc sep t with
      | none => rw [hfind] at h; exact absurd h (by simp)
      | some j =>
        rw [hfind] at h
        injection h with h
        subst h
        obtain ⟨h1, h2⟩ := ih hfind
        exact ⟨h1, by simpa using by omega⟩

theorem findOcc_le_of_isPrefixOf {sep : List Char} :
    ∀ {l : List Char} {p : Nat}, sep.isPrefixOf (l.drop p) = true →
      ∃ i, i ≤ p ∧ findOcc sep l = some i := by
  intro l
  induction l with
  | nil =>
    intro p h
    simp only [List.drop_nil] at h
    have : sep = [] := List.prefix_nil.mp (List.isPrefixOf_iff_prefix.mp h)
    subst this
    exact ⟨0, by omega, by rw [findOcc]; rfl⟩
  | cons x t ih =>
    intro p h
    by_cases hpre : sep.isPrefixOf (x :: t) = true
    · exact ⟨0, by omega, by rw [findOcc, if_pos hpre]⟩
    · cases p with
      | zero => exact absurd (by simpa using h) hpre
      | succ q =>
        obtain ⟨i, hi, hfind⟩ := ih (by simpa using h)
        exact ⟨i + 1, by omega, by rw [findOcc, if_neg hpre, hfind]; rfl⟩

theorem splitOnGo_ne_nil (sep : List Char) (fuel : Nat) (l : List Char) :
    splitOnGo sep fuel l ≠ [] := by
  cases fuel with
  | zero => simp [splitOnGo]
  | succ f =>
    rw [splitOnGo]
    cases findOcc sep l with
    | none => simp
    | some i => simp

theorem getLastD_congr {α : Type} {l : List α} (hne : l ≠ []) (a b : α) :
    l.getLastD a = l.getLastD b := by
  rw [List.getLastD_eq_getLast?, List.getLastD_eq_getLast?]
  cases hl : l.getLast? with
  | none => exact absurd (List.getLast?_eq_none_iff.mp hl) hne
  | some x => rfl

theorem getLastD_mem {α : Type} {l : List α} (hne : l ≠ []) (a : α) :
    l.getLastD a ∈ l := by
  rw [List.getLastD_eq_getLast?]
  cases hl : l.getLast? with
  | none => exact absurd (List.getLast?_eq_none_iff.mp hl) hne
  | some x => exact List.mem_of_mem_getLast? hl

/-- Occurrences of a marker `m ++ ['=']` inside `x ++ (m ++ ['=']) ++ d`
with `'='` absent from `m` and `d` either lie wholly inside `x` or start
exactly at the marker position: nothing straddles the junctions. -/
theorem occurrence_dichotomy {m d x : List Char} (hm : '=' ∉ m) (hd : '=' ∉ d) {i : Nat}
    (h : (m ++ ['=']).isPrefixOf ((x ++ (m ++ ['=']) ++ d).drop i) = true) :
    i + (m.length + 1) ≤ x.length ∨ i = x.length := by
  obtain ⟨r, hr⟩ := List.isPrefixOf_iff_prefix.mp h
  have hlen : i + (m.length + 1) ≤ (x ++ (m ++ ['=']) ++ d).length := by
    have h1 : ((x ++ (m ++ ['=']) ++ d).drop i).length =
        (x ++ (m ++ ['=']) ++ d).length - i := by simp
    have h2 : ((m ++ ['=']) ++ r).length = m.length + 1 + r.length := by simp; omega
    rw [hr, h1] at h2
    simp only [List.length_append, List.length_singleton] at h2 ⊢
    omega
  have hidx : i + m.length < (x ++ (m ++ ['=']) ++ d).length := by
    simp only [List.length_append, List.length_singleton] at hlen ⊢
    omega
  have hchar : (x ++ (m ++ ['=']) ++ d)[i + m.length] = '=' := by
    have hb : m.length < ((x ++ (m ++ ['=']) ++ d).drop i).length := by
      simp only [List.length_drop, List.length_append, List.length_singleton] at hlen ⊢
      omega
    have e1 : ((x ++ (m ++ ['=']) ++ d).drop i)[m.length] =
        (x ++ (m ++ ['=']) ++ d)[i + m.length] := List.getElem_drop _
    rw [← e1]
    simp only [← hr]
    rw [List.getElem_append, dif_pos (by simp), List.getElem_append,
      dif_neg (by omega)]
    simp
  by_cases hA : i + m.length < x.length
  · left
    -- the occurrence ends inside x
    omega
  · by_cases hB : i + m.length = x.length + m.length
    · right; omega
    · exfalso
      rw [List.getElem_append] at hchar
      by_cases hC : i + m.length < (x ++ (m ++ ['='])).length
      · rw [dif_pos hC] at hchar
        rw [List.getElem_append, dif_neg hA] at hchar
        have hk : i + m.length - x.length < m.length := by
          simp only [List.length_append, List.length_singleton] at hC
          omega
        rw [List.getElem_append, dif_pos hk] at hchar
        exact hm (hchar ▸ List.getElem_mem hk)
      · rw [dif_neg hC] at hchar
        exact hd (hchar ▸ List.getElem_mem _)

/-- Splitting `x ++ (m ++ ['=']) ++ d` on the marker `m ++ ['=']`, with `'='`
absent from `m` and `d`, ends with the segment `d` — whatever `x` is. -/
theorem splitOnGo_lastSeg {m d : List Char} (hm : '=' ∉ m) (hd : '=' ∉ d) :
    ∀ fuel (x dft : List Char), (x ++ (m ++ ['=']) ++ d).length ≤ fuel →
      (splitOnGo (m ++ ['=']) fuel (x ++ (m ++ ['=']) ++ d)).getLastD dft = d := by
  intro fuel
  induction fuel with
  | zero =>
    intro x dft hlen
    exfalso
    simp only [List.length_append, List.length_singleton] at hlen
    omega
  | succ f ih =>
    intro x dft hlen
    have hocc : (m ++ ['=']).isPrefixOf ((x ++ (m ++ ['=']) ++ d).drop x.length) = true := by
      have hdx : (x ++ (m ++ ['=']) ++ d).drop x.length = (m ++ ['=']) ++ d := by
        rw [List.append_assoc, List.drop_left]
      rw [hdx]
      exact List.isPrefixOf_iff_prefix.mpr (List.prefix_append _ _)
    obtain ⟨i, hip, hfind⟩ := findOcc_le_of_isPrefixOf hocc
    rw [splitOnGo, hfind]
    dsimp only
    rw [List.getLastD_cons]
    obtain ⟨hpre, _⟩ := findOcc_some_isPrefixOf hfind
    rcases occurrence_dichotomy hm hd hpre with hcase | hcase
    · have hdrop : (x ++ (m ++ ['=']) ++ d).drop (i + (m ++ ['=']).length) =
          (x.drop (i + (m ++ ['=']).length)) ++ (m ++ ['=']) ++ d := by
        rw [List.append_assoc, List.drop_append_eq_append_drop]
        have hz : i + (m ++ ['=']).length - x.length = 0 := by
          simp only [List.length_append, List.length_singleton]
          omega
        rw [hz, List.drop_zero]
        simp [List.append_assoc]
      rw [hdrop]
      apply ih
      simp only [List.length_append, List.length_singleton, List.length_drop] at hlen ⊢
      omega
    · subst hcase
      have hdrop : (x ++ (m ++ ['=']) ++ d).drop (x.length + (m ++ ['=']).length) = d := by
        rw [List.append_assoc, List.drop_append_eq_append_drop]
        have h1 : List.drop (x.length + (m ++ ['=']).length) x = [] :=
          List.drop_eq_nil_of_le (by omega)
        have h2 : x.length + (m ++ ['=']).length - x.length = (m ++ ['=']).length := by
          omega
        rw [h1, h2, List.nil_append, List.drop_left]
      rw [hdrop]
      have hnone : findOcc (m ++ ['=']) d = none :=
        findOcc_eq_none (by simp) hd
      cases f with
      | zero => rfl
      | succ f' =>
        rw [splitOnGo, hnone]
        rfl

/-- Any query of the shape `junk ++ "alpaca-padding=" ++ digits` re-parses to
the encoded number: the parser's last-split segment is exactly the digit
run. -/
theorem parse_roundtrip (x : List Char) (n : Nat) :
    parse_target_size (x ++ alpacaMarker ++ natDigits n) = n := by
  have hmarker : alpacaMarker = "alpaca-padding".toList ++ ['='] := rfl
  have hm : '=' ∉ "alpaca-padding".toList := by decide
  have hd : '=' ∉ natDigits n := (natDigits_not_mem n).1
  have hamp : '&' ∉ natDigits n := (natDigits_not_mem n).2.1
  have h1 : (splitOnL alpacaMarker (x ++ alpacaMarker ++ natDigits n)).getLastD [] =
      natDigits n := by
    rw [splitOnL, hmarker]
    exact splitOnGo_lastSeg hm hd _ x [] (by omega)
  have h2 : splitOnL ['&'] (natDigits n) = [natDigits n] := by
    rw [splitOnL]
    have hnone : findOcc ['&'] (natDigits n) = none :=
      findOcc_eq_none (by simp) hamp
    rw [splitOnGo, hnone]
  simp only [parse_target_size]
  rw [h1, h2]
  dsimp only [List.headD]
  rw [(natDigits_spec n).2.2]

theorem queryOf_cons_notq {x : Char} (hx : x ≠ '?') (l : List Char) :
    queryOf (x :: l) = queryOf l := by
  have hpre : ¬ (['?'].isPrefixOf (x :: l) = true) := by
    simp [List.isPrefixOf]
    intro h
    exact absurd h.symm hx
  rw [queryOf, queryOf, findOcc, if_neg hpre]
  cases hfind : findOcc ['?'] l with
  | none => simp [hfind]
  | some i => simp [hfind]

theorem queryOf_append_notq {a : List Char} (ha : '?' ∉ a) (b : List Char) :
    queryOf (a ++ b) = queryOf b := by
  induction a with
  | nil => rfl
  | cons x t ih =>
    rw [List.cons_append,
      queryOf_cons_notq (fun h => ha (h ▸ List.mem_cons_self x t)) (t ++ b)]
    exact ih (fun h => ha (List.mem_cons_of_mem x h))

theorem queryOf_cons_q (l : List Char) : queryOf ('?' :: l) = l := by
  rw [queryOf, findOcc, if_pos (by simp [List.isPrefixOf])]
  rfl

theorem exists_first_q {l : List Char} (h : '?' ∈ l) :
    ∃ a b, l = a ++ '?' :: b ∧ '?' ∉ a := by
  induction l with
  | nil => exact absurd h (by simp)
  | cons x t ih =>
    by_cases hx : x = '?'
    · subst hx
      exact ⟨[], t, rfl, by simp⟩
    · obtain ⟨a, b, rfl, hna⟩ := ih (by
        rcases List.mem_cons.mp h with h' | h'
        · exact absurd h'.symm hx
        · exact h')
      refine ⟨x :: a, b, rfl, ?_⟩
      intro hq
      rcases List.mem_cons.mp hq with h' | h'
      · exact hx h'.symm
      · exact hna h'

theorem splitOnGo_mem_subset (sep : List Char) :
    ∀ fuel l seg, seg ∈ splitOnGo sep fuel l → ∀ c ∈ seg, c ∈ l := by
  intro fuel
  induction fuel with
  | zero =>
    intro l seg hseg c hc
    simp only [splitOnGo, List.mem_singleton] at hseg
    subst hseg
    exact hc
  | succ f ih =>
    intro l seg hseg c hc
    rw [splitOnGo] at hseg
    cases hfind : findOcc sep l with
    | none =>
      rw [hfind] at hseg
      simp only [List.mem_singleton] at hseg
      subst hseg
      exact hc
    | some i =>
      rw [hfind] at hseg
      rcases List.mem_cons.mp hseg with rfl | hmem
      · exact List.take_subset i l hc
      · exact List.drop_subset _ l (ih _ seg hmem c hc)

theorem extensionOf_subset {link fext : List Char} (h : extensionOf link = some fext) :
    ∀ c ∈ fext, c ∈ link := by
  intro c hc
  rw [extensionOf] at h
  by_cases hdd : (splitOnL ['/'] link).getLastD [] = ['.', '.']
  · rw [if_pos hdd] at h
    exact absurd h (by simp)
  · rw [if_neg hdd] at h
    cases hidx : lastIdxOf '.' ((splitOnL ['/'] link).getLastD []) with
    | none => rw [hidx] at h; exact absurd h (by simp)
    | some i =>
      rw [hidx] at h
      cases i with
      | zero => exact absurd h (by simp)
      | succ j =>
        injection h with h
        subst h
        have hmem : c ∈ (splitOnL ['/'] link).getLastD [] :=
          List.drop_subset _ _ hc
        have hne : splitOnL ['/'] link ≠ [] := splitOnGo_ne_nil _ _ _
        exact splitOnGo_mem_subset ['/'] _ link _ (getLastD_mem hne []) c hmem

/-- C8 counterexample: for the reference `style.css?v=1.2` a query string
already exists, but the code inspects the Path-extension (`2`, the text
after the final dot), sees no `?` in it, and appends with `?` rather than
the claimed `&`. -/
theorem c8_counterexample :
    ('?' ∈ "style.css?v=1.2".toList) ∧
    append_ref_link "style.css?v=1.2".toList 5 =
      some ("style.css?v=1.2".toList ++ '?' :: (alpacaMarker ++ natDigits 5)) ∧
    ("style.css?v=1.2".toList ++ '?' :: (alpacaMarker ++ natDigits 5)) ≠
      ("style.css?v=1.2".toList ++ '&' :: (alpacaMarker ++ natDigits 5)) := by
  refine ⟨by decide, by rfl, by decide⟩

/-- C8 (corrected): for a real resource whose reference path has an
extension, the rewriter appends `alpaca-padding=<size>` — with `&` exactly
when the extension (the text after the final dot of the last path
component) contains `?`, and `?` otherwise, regardless of whether a query
string exists — and re-parsing the rewritten reference's query always
yields back exactly the assigned target size. -/
theorem c8_round_trip_amended (link : List Char) (n : Nat) (fext : List Char)
    (h : extensionOf link = some fext) :
    append_ref_link link n =
      some (link ++ (if fext.contains '?' then '&' else '?') ::
        (alpacaMarker ++ natDigits n)) ∧
    parse_target_size (queryOf (link ++ (if fext.contains '?' then '&' else '?') ::
      (alpacaMarker ++ natDigits n))) = n := by
  constructor
  · rw [append_ref_link, h]
  · by_cases hq : '?' ∈ link
    · obtain ⟨a, b, hl, hna⟩ := exists_first_q hq
      rw [hl]
      have hassoc : (a ++ '?' :: b) ++ (if fext.contains '?' then '&' else '?') ::
          (alpacaMarker ++ natDigits n) =
          a ++ '?' :: (b ++ (if fext.contains '?' then '&' else '?') ::
            (alpacaMarker ++ natDigits n)) := by
        simp
      rw [hassoc, queryOf_append_notq hna, queryOf_cons_q]
      have hassoc2 : b ++ (if fext.contains '?' then '&' else '?') ::
          (alpacaMarker ++ natDigits n) =
          (b ++ [if fext.contains '?' then '&' else '?']) ++ alpacaMarker ++
            natDigits n := by
        simp
      rw [hassoc2]
      exact parse_roundtrip _ n
    · have hfq : ¬ '?' ∈ fext := fun hc => hq (extensionOf_subset h '?' hc)
      have hcont : fext.contains '?' = false := by
        simp [List.contains]
        exact hfq
      rw [hcont]
      simp only [Bool.false_eq_true, if_false]
      rw [queryOf_append_notq hq, queryOf_cons_q]
      have : alpacaMarker ++ natDigits n = [] ++ alpacaMarker ++ natDigits n := by simp
      rw [this]
      exact parse_roundtrip [] n

/-- C8 witness: rewriting `style.css` with target 7 appends
`?alpaca-padding=7` and the query re-parses to 7. -/
theorem c8_witness :
    append_ref_link "style.css".toList 7 =
      some ("style.css".toList ++ (if "css".toList.contains '?' then '&' else '?') ::
        (alpacaMarker ++ natDigits 7)) ∧
    parse_target_size (queryOf ("style.css".toList ++
      (if "css".toList.contains '?' then '&' else '?') ::
        (alpacaMarker ++ natDigits 7))) = 7 :=
  c8_round_trip_amended "style.css".toList 7 "css".toList (by rfl)

end Alpaca
